import Mathlib

/-!
Verification of the Enigma-machine simulator core of this repository.

The repository snapshot contains the fixed bodies of `encryptChar` and
`stepRotors` (in the bug-fix report `6/fix.md`) together with the full jest
test suite for `enigma.js`; the remaining definitions of `enigma.js`
(`Rotor`, `plugboardSwap`, `process`, the rotor catalog and reflector, and
machine construction) are not present in the snapshot and are modelled from
the specification, as marked in their doc comments.

Characters are Lean `Char`, strings are `List Char`, and the mutable machine
is embedded as explicit state passing: JavaScript methods that mutate
`this` become functions `Enigma → ... → Enigma × ...`.
-/

/-- The fixed 26-letter uppercase alphabet (`const alphabet` in `enigma.js`,
quoted in `6/fix.md` and exported to the test suite). -/
def alphabet : List Char :=
  ['A', 'B', 'C', 'D', 'E', 'F', 'G', 'H', 'I', 'J', 'K', 'L', 'M',
   'N', 'O', 'P', 'Q', 'R', 'S', 'T', 'U', 'V', 'W', 'X', 'Y', 'Z']

/-- The 26 lowercase letters; used only to model uppercasing of input. -/
def lowercaseAlphabet : List Char :=
  ['a', 'b', 'c', 'd', 'e', 'f', 'g', 'h', 'i', 'j', 'k', 'l', 'm',
   'n', 'o', 'p', 'q', 'r', 's', 't', 'u', 'v', 'w', 'x', 'y', 'z']

/-- Nonnegative remainder modulo 26, on integers (the `((n % m) + m) % m`
idiom a JavaScript implementation needs; the spec computes every
position/offset modulo 26). -/
def mod26 (n : Int) : Nat := (((n % 26) + 26) % 26).toNat

/-- Modelled from the spec (§3, §4.1; the `Rotor` class of `enigma.js` is not
in the snapshot): a substitution wheel with a wiring permutation, a notch
letter, a ring setting and a rotating position. -/
structure Rotor where
  wiring : List Char
  notch : Char
  ringSetting : Nat
  position : Nat
deriving DecidableEq, Repr

/-- The offset `position - ringSetting` that §4.1 applies on both sides of the
wiring lookup. -/
def Rotor.offset (r : Rotor) : Int := (r.position : Int) - (r.ringSetting : Int)

/-- Modelled from the spec (§4.1 `forward`): add the `position - ringSetting`
offset to the input letter's alphabet index, look the result up in `wiring`,
and subtract the same offset from the alphabet index of the wiring's output,
all modulo 26. Pure function of the rotor value; no side effects. -/
def Rotor.forward (r : Rotor) (c : Char) : Char :=
  alphabet.getD
    (mod26 ((alphabet.indexOf
      (r.wiring.getD (mod26 ((alphabet.indexOf c : Int) + r.offset)) 'A') : Int)
      - r.offset)) 'A'

/-- Modelled from the spec (§4.1 `backward`): locate, within `wiring`, the
input letter adjusted by the same `position - ringSetting` offset, and return
the plain alphabet letter at that wiring index adjusted back, modulo 26. -/
def Rotor.backward (r : Rotor) (c : Char) : Char :=
  alphabet.getD
    (mod26 ((r.wiring.indexOf
      (alphabet.getD (mod26 ((alphabet.indexOf c : Int) + r.offset)) 'A') : Int)
      - r.offset)) 'A'

/-- Modelled from the spec (§4.1 `step`): increment `position` by 1 modulo 26. -/
def Rotor.step (r : Rotor) : Rotor := { r with position := (r.position + 1) % 26 }

/-- Modelled from the spec (§4.1 `atNotch`): true iff the current `position`
equals the alphabet index of the notch letter. -/
def Rotor.atNotch (r : Rotor) : Bool := r.position == alphabet.indexOf r.notch

/-- Modelled from the spec (§6, §9; the `ROTORS` catalog of `enigma.js` is not
in the snapshot): the fixed wiring catalog of historical rotors I, II and III,
each a wiring permutation paired with its notch letter.  The test suite pins
`ROTORS[0].wiring[0] = 'E'` and uses notch `E` for rotor II. -/
def ROTORS : List (List Char × Char) :=
  [(['E', 'K', 'M', 'F', 'L', 'G', 'D', 'Q', 'V', 'Z', 'N', 'T', 'O',
     'W', 'Y', 'H', 'X', 'U', 'S', 'P', 'A', 'I', 'B', 'R', 'C', 'J'], 'Q'),
   (['A', 'J', 'D', 'K', 'S', 'I', 'R', 'U', 'X', 'B', 'L', 'H', 'W',
     'T', 'Y', 'G', 'C', 'N', 'V', 'Z', 'P', 'Q', 'F', 'M', 'O', 'E'], 'E'),
   (['B', 'D', 'F', 'H', 'J', 'L', 'C', 'P', 'R', 'T', 'X', 'V', 'Z',
     'N', 'Y', 'E', 'I', 'W', 'G', 'A', 'K', 'M', 'U', 'S', 'Q', 'O'], 'V')]

/-- Modelled from the spec (§4.3; the `REFLECTOR` table of `enigma.js` is not
in the snapshot): the fixed involutive reflector substitution (historical
reflector B); no letter reflects to itself. -/
def REFLECTOR : List Char :=
  ['Y', 'R', 'U', 'H', 'Q', 'S', 'L', 'D', 'P', 'X', 'N', 'G', 'O',
   'K', 'M', 'I', 'E', 'B', 'F', 'Z', 'C', 'W', 'V', 'J', 'A', 'T']

/-- The reflector lookup `REFLECTOR[alphabet.indexOf(c)]` exactly as it occurs
in the fixed `encryptChar` of `6/fix.md`. -/
def reflect (c : Char) : Char := REFLECTOR.getD (alphabet.indexOf c) 'A'

/-- Modelled from the spec (§4.2; the `plugboardSwap` function of `enigma.js`
is not in the snapshot): scan the pair list; if the letter appears in some
pair return its partner, otherwise return the letter unchanged. -/
def plugboardSwap (c : Char) (pairs : List (Char × Char)) : Char :=
  match pairs with
  | [] => c
  | (a, b) :: rest => if c = a then b else if c = b then a else plugboardSwap c rest

/-- The letters occurring in a plugboard pair list, in order. -/
def plugLetters : List (Char × Char) → List Char
  | [] => []
  | (a, b) :: rest => a :: b :: plugLetters rest

/-- Modelled from the spec (§2, §4.4): the machine owns an ordered sequence of
exactly three rotors (`rotors[0]` left, `rotors[1]` middle, `rotors[2]`
right), the plugboard pair list, and the shared reflector. -/
structure Enigma where
  rotorL : Rotor
  rotorM : Rotor
  rotorR : Rotor
  plugboardPairs : List (Char × Char)
deriving DecidableEq, Repr

/-- The fixed `stepRotors` of `6/fix.md`: capture whether the middle rotor is
at its notch before any stepping; if the right rotor is at its notch step the
middle rotor; if the captured flag is set step the left rotor and step the
middle rotor again; finally always step the right rotor. -/
def stepRotors (e : Enigma) : Enigma :=
  let middleAtNotch := e.rotorM.atNotch
  let e1 := if e.rotorR.atNotch then { e with rotorM := e.rotorM.step } else e
  let e2 :=
    if middleAtNotch then
      { e1 with rotorL := e1.rotorL.step, rotorM := e1.rotorM.step }
    else e1
  { e2 with rotorR := e2.rotorR.step }

/-- Steps 3-7 of the fixed `encryptChar` of `6/fix.md` (the pure substitution
chain, after the rotors have stepped): plugboard swap, forward through the
rotors right to left, reflector, backward left to right, and the second
plugboard swap restored by the fix. -/
def signalPath (e : Enigma) (c : Char) : Char :=
  let c1 := plugboardSwap c e.plugboardPairs
  let c2 := e.rotorR.forward c1
  let c3 := e.rotorM.forward c2
  let c4 := e.rotorL.forward c3
  let c5 := reflect c4
  let c6 := e.rotorL.backward c5
  let c7 := e.rotorM.backward c6
  let c8 := e.rotorR.backward c7
  plugboardSwap c8 e.plugboardPairs

/-- The fixed `encryptChar` of `6/fix.md`: a character outside the alphabet is
returned unchanged with no state mutation; otherwise the rotors step once and
the character runs through the signal path of the stepped machine. -/
def encryptChar (e : Enigma) (c : Char) : Enigma × Char :=
  if c ∈ alphabet then (stepRotors e, signalPath (stepRotors e) c) else (e, c)

/-- Threads the machine state through `encryptChar` over a character list,
returning the final state and the output characters. -/
def processChars : Enigma → List Char → Enigma × List Char
  | e, [] => (e, [])
  | e, c :: cs =>
    let p := encryptChar e c
    let q := processChars p.1 cs
    (q.1, p.2 :: q.2)

/-- Modelled from the spec (§4.4 `process` uppercases its input): map a
lowercase letter to the uppercase letter at the same alphabet index and leave
every other character unchanged. -/
def upChar (c : Char) : Char :=
  if c ∈ lowercaseAlphabet then alphabet.getD (lowercaseAlphabet.indexOf c) 'A'
  else c

/-- Modelled from the spec (§4.4; the `process` method of `enigma.js` is not
in the snapshot): uppercase the input, then push each character through
`encryptChar`, threading the rotor state cumulatively across the whole
message, and concatenate the outputs. -/
def process (e : Enigma) (text : List Char) : List Char :=
  (processChars e (text.map upChar)).2

/-- Modelled from the spec (§6 `construct`): build the machine from rotor
catalog indices, initial positions, ring settings and plugboard pairs;
`rotors[i] = new Rotor(ROTORS[id].wiring, ROTORS[id].notch, rings[i],
positions[i])`. -/
def mkEnigma (rotorIDs positions rings : List Nat)
    (plugs : List (Char × Char)) : Enigma :=
  let build := fun (i : Nat) =>
    let rs := ROTORS.getD (rotorIDs.getD i 0) (alphabet, 'A')
    Rotor.mk rs.1 rs.2 (rings.getD i 0) (positions.getD i 0)
  Enigma.mk (build 0) (build 1) (build 2) plugs

/-- Modelled from the spec (§6, §7): a configuration is well formed when there
are exactly three rotor indices, three positions and three ring settings all
in 0-25, and at most 13 plugboard pairs of alphabet letters in which no
letter appears twice. -/
def validConfig (rotorIDs : List Nat) (positions rings : List Int)
    (plugs : List (Char × Char)) : Bool :=
  rotorIDs.length == 3 && positions.length == 3 && rings.length == 3 &&
  positions.all (fun p => 0 ≤ p && p ≤ 25) &&
  rings.all (fun r => 0 ≤ r && r ≤ 25) &&
  decide ((plugLetters plugs).Nodup) &&
  (plugLetters plugs).all (fun x => x ∈ alphabet) &&
  plugs.length ≤ 13

/-- Modelled from the spec (§7 error taxonomy): the single fatal error kind a
malformed configuration surfaces at construction time. -/
inductive ConfigError where
  | configurationError
deriving DecidableEq, Repr

/-- Modelled from the spec (§7 failure semantics): construction validates the
configuration and surfaces a configuration error instead of building a
machine from a malformed configuration. -/
def construct (rotorIDs : List Nat) (positions rings : List Int)
    (plugs : List (Char × Char)) : Except ConfigError Enigma :=
  if validConfig rotorIDs positions rings plugs then
    Except.ok (mkEnigma rotorIDs (positions.map Int.toNat) (rings.map Int.toNat) plugs)
  else Except.error ConfigError.configurationError

/-- A wiring is a permutation of the alphabet: 26 distinct letters, each an
alphabet letter, covering the whole alphabet. -/
def validWiring (w : List Char) : Prop :=
  w.Nodup ∧ w.length = 26 ∧ (∀ c ∈ w, c ∈ alphabet) ∧ ∀ c ∈ alphabet, c ∈ w

instance (w : List Char) : Decidable (validWiring w) := by
  unfold validWiring; infer_instance

/-- A plugboard pair list is well formed when its letters are distinct
alphabet letters. -/
def plugOk (pairs : List (Char × Char)) : Prop :=
  (plugLetters pairs).Nodup ∧ ∀ x ∈ plugLetters pairs, x ∈ alphabet

instance (pairs : List (Char × Char)) : Decidable (plugOk pairs) := by
  unfold plugOk; infer_instance

/-- A machine state is valid when each rotor carries a wiring permutation and
the plugboard pair list is well formed; every machine built by `construct`
from the catalog satisfies this, and stepping preserves it. -/
def validEnigma (e : Enigma) : Prop :=
  validWiring e.rotorL.wiring ∧ validWiring e.rotorM.wiring ∧
  validWiring e.rotorR.wiring ∧ plugOk e.plugboardPairs

instance (e : Enigma) : Decidable (validEnigma e) := by
  unfold validEnigma; infer_instance

example : validWiring (ROTORS.getD 0 (alphabet, 'A')).1 := by decide
example : validWiring (ROTORS.getD 1 (alphabet, 'A')).1 := by decide
example : validWiring (ROTORS.getD 2 (alphabet, 'A')).1 := by decide
example : ∀ c ∈ alphabet, reflect (reflect c) = c := by decide
example : ∀ c ∈ alphabet, reflect c ≠ c := by decide
example : validEnigma (mkEnigma [0, 1, 2] [0, 0, 0] [0, 0, 0] []) := by decide

/-! ### Basic facts about the alphabet, `mod26`, and list lookup -/

theorem alphabet_nodup : alphabet.Nodup := by decide

theorem alphabet_length : alphabet.length = 26 := rfl

theorem getD_eq_of_lt {α : Type} (l : List α) (n : Nat) (d : α)
    (h : n < l.length) : l.getD n d = l[n] := by
  simp [List.getD_eq_getElem?_getD, List.getElem?_eq_getElem h]

theorem indexOf_alphabet_lt {c : Char} (hc : c ∈ alphabet) :
    alphabet.indexOf c < 26 :=
  List.indexOf_lt_length.2 hc

theorem mod26_lt (n : Int) : mod26 n < 26 := by
  unfold mod26; omega

theorem mod26_sub_add (a : Int) (b : Nat) (hb : b < 26) :
    mod26 ((mod26 ((b : Int) - a) : Int) + a) = b := by
  unfold mod26; omega

theorem mod26_add_sub (a : Int) (b : Nat) (hb : b < 26) :
    mod26 ((mod26 ((b : Int) + a) : Int) - a) = b := by
  unfold mod26; omega

theorem getD_alphabet_mem (n : Nat) (h : n < 26) :
    alphabet.getD n 'A' ∈ alphabet := by
  rw [getD_eq_of_lt alphabet n 'A' (by simpa [alphabet_length] using h)]
  exact List.getElem_mem (by simpa [alphabet_length] using h)

/-! ### Rotor lemmas -/

theorem Rotor.forward_mem (r : Rotor) (c : Char) : r.forward c ∈ alphabet := by
  unfold Rotor.forward
  exact getD_alphabet_mem _ (mod26_lt _)

theorem Rotor.backward_mem (r : Rotor) (c : Char) : r.backward c ∈ alphabet := by
  unfold Rotor.backward
  exact getD_alphabet_mem _ (mod26_lt _)


theorem mem_getD (l : List Char) (n : Nat) (d : Char) (h : n < l.length) :
    l.getD n d ∈ l := by
  rw [getD_eq_of_lt _ _ _ h]
  exact List.getElem_mem h

theorem indexOf_getD_of_nodup (l : List Char) (hnd : l.Nodup) (n : Nat)
    (h : n < l.length) : l.indexOf (l.getD n 'A') = n := by
  rw [getD_eq_of_lt _ _ _ h]
  exact List.indexOf_getElem hnd n h

theorem getD_indexOf_of_mem (l : List Char) {c : Char} (hc : c ∈ l) :
    l.getD (l.indexOf c) 'A' = c := by
  have h := List.indexOf_lt_length.2 hc
  rw [getD_eq_of_lt _ _ _ h]
  exact List.getElem_indexOf h

theorem indexOf_getD_alphabet (n : Nat) (h : n < 26) :
    alphabet.indexOf (alphabet.getD n 'A') = n :=
  indexOf_getD_of_nodup alphabet alphabet_nodup n h

theorem getD_alphabet_indexOf {c : Char} (hc : c ∈ alphabet) :
    alphabet.getD (alphabet.indexOf c) 'A' = c :=
  getD_indexOf_of_mem alphabet hc

theorem Rotor.backward_forward (r : Rotor) (hw : validWiring r.wiring)
    (c : Char) (hc : c ∈ alphabet) : r.backward (r.forward c) = c := by
  obtain ⟨hnd, hlen, hsub, hsup⟩ := hw
  set i := alphabet.indexOf c with hidef
  have hi : i < 26 := indexOf_alphabet_lt hc
  set k := mod26 ((i : Int) + r.offset) with hkdef
  have hk : k < r.wiring.length := by rw [hlen]; exact mod26_lt _
  set o := r.wiring.getD k 'A' with hodef
  have homem : o ∈ alphabet := hsub _ (mem_getD _ _ _ hk)
  have hoi : alphabet.indexOf o < 26 := indexOf_alphabet_lt homem
  have hfwd : r.forward c =
      alphabet.getD (mod26 ((alphabet.indexOf o : Int) - r.offset)) 'A' := rfl
  rw [hfwd]
  unfold Rotor.backward
  rw [indexOf_getD_alphabet _ (mod26_lt _),
    mod26_sub_add r.offset (alphabet.indexOf o) hoi,
    getD_alphabet_indexOf homem, hodef,
    indexOf_getD_of_nodup r.wiring hnd k hk, hkdef,
    mod26_add_sub r.offset i hi, hidef,
    getD_alphabet_indexOf hc]

theorem Rotor.forward_backward (r : Rotor) (hw : validWiring r.wiring)
    (c : Char) (hc : c ∈ alphabet) : r.forward (r.backward c) = c := by
  obtain ⟨hnd, hlen, hsub, hsup⟩ := hw
  set i := alphabet.indexOf c with hidef
  have hi : i < 26 := indexOf_alphabet_lt hc
  set s := mod26 ((i : Int) + r.offset) with hsdef
  have hs : s < 26 := mod26_lt _
  set sh := alphabet.getD s 'A' with hshdef
  have hshmem : sh ∈ alphabet := getD_alphabet_mem s hs
  have hshW : sh ∈ r.wiring := hsup _ hshmem
  have hj : r.wiring.indexOf sh < r.wiring.length := List.indexOf_lt_length.2 hshW
  have hj26 : r.wiring.indexOf sh < 26 := by rwa [hlen] at hj
  have hbwd : r.backward c =
      alphabet.getD (mod26 ((r.wiring.indexOf sh : Int) - r.offset)) 'A' := rfl
  rw [hbwd]
  unfold Rotor.forward
  rw [indexOf_getD_alphabet _ (mod26_lt _),
    mod26_sub_add r.offset (r.wiring.indexOf sh) hj26,
    getD_indexOf_of_mem r.wiring hshW, hshdef,
    indexOf_getD_alphabet s hs, hsdef,
    mod26_add_sub r.offset i hi, hidef,
    getD_alphabet_indexOf hc]

/-! ### Plugboard lemmas -/

theorem plugboardSwap_mem_or (c : Char) (pairs : List (Char × Char)) :
    plugboardSwap c pairs = c ∨ plugboardSwap c pairs ∈ plugLetters pairs := by
  induction pairs with
  | nil => left; rfl
  | cons p rest ih =>
    obtain ⟨a, b⟩ := p
    by_cases h1 : c = a
    · right; simp [plugboardSwap, plugLetters, h1]
    · by_cases h2 : c = b
      · right; simp [plugboardSwap, plugLetters, h1, h2]
      · have hstep : plugboardSwap c ((a, b) :: rest) = plugboardSwap c rest := by
          simp [plugboardSwap, h1, h2]
        rw [hstep]
        rcases ih with h | h
        · left; exact h
        · right; simp only [plugLetters, List.mem_cons]; right; right; exact h

theorem plugboardSwap_not_mem (c : Char) (pairs : List (Char × Char))
    (h : c ∉ plugLetters pairs) : plugboardSwap c pairs = c := by
  induction pairs with
  | nil => rfl
  | cons p rest ih =>
    obtain ⟨a, b⟩ := p
    simp only [plugLetters, List.mem_cons, not_or] at h
    obtain ⟨h1, h2, h3⟩ := h
    have hstep : plugboardSwap c ((a, b) :: rest) = plugboardSwap c rest := by
      simp [plugboardSwap, h1, h2]
    rw [hstep]
    exact ih h3

theorem plugboardSwap_mem_alphabet (pairs : List (Char × Char))
    (hsub : ∀ x ∈ plugLetters pairs, x ∈ alphabet) (c : Char)
    (hc : c ∈ alphabet) : plugboardSwap c pairs ∈ alphabet := by
  induction pairs with
  | nil => exact hc
  | cons p rest ih =>
    obtain ⟨a, b⟩ := p
    simp only [plugLetters, List.mem_cons] at hsub
    by_cases h1 : c = a
    · simp only [plugboardSwap, h1, if_pos rfl]
      exact hsub b (Or.inr (Or.inl rfl))
    · by_cases h2 : c = b
      · have hstep : plugboardSwap c ((a, b) :: rest) = a := by
          simp [plugboardSwap, h1, h2]
        rw [hstep]
        exact hsub a (Or.inl rfl)
      · have hstep : plugboardSwap c ((a, b) :: rest) = plugboardSwap c rest := by
          simp [plugboardSwap, h1, h2]
        rw [hstep]
        exact ih fun x hx => hsub x (Or.inr (Or.inr hx))

theorem plugboardSwap_swap (pairs : List (Char × Char)) :
    ∀ (hnd : (plugLetters pairs).Nodup) (c : Char),
    plugboardSwap (plugboardSwap c pairs) pairs = c := by
  induction pairs with
  | nil => intro _ c; rfl
  | cons p rest ih =>
    intro hnd c
    obtain ⟨a, b⟩ := p
    simp only [plugLetters, List.nodup_cons, List.mem_cons, not_or] at hnd
    obtain ⟨⟨hab, hna⟩, hnb, hrest⟩ := hnd
    have hswa : plugboardSwap a ((a, b) :: rest) = b := by simp [plugboardSwap]
    have hswb : plugboardSwap b ((a, b) :: rest) = a := by
      have hba : ¬ (b = a) := fun h => hab h.symm
      simp [plugboardSwap, hba]
    by_cases h1 : c = a
    · rw [h1, hswa, hswb]
    · by_cases h2 : c = b
      · rw [h2, hswb, hswa]
      · have hstep : plugboardSwap c ((a, b) :: rest) = plugboardSwap c rest := by
          simp [plugboardSwap, h1, h2]
        rw [hstep]
        have hd := plugboardSwap_mem_or c rest
        have hda : ¬ (plugboardSwap c rest = a) := by
          rcases hd with h | h
          · rw [h]; exact h1
          · intro he; exact hna (he ▸ h)
        have hdb : ¬ (plugboardSwap c rest = b) := by
          rcases hd with h | h
          · rw [h]; exact h2
          · intro he; exact hnb (he ▸ h)
        have hstep2 : plugboardSwap (plugboardSwap c rest) ((a, b) :: rest) =
            plugboardSwap (plugboardSwap c rest) rest := by
          simp [plugboardSwap, hda, hdb]
        rw [hstep2]
        exact ih hrest c

/-! ### Reflector lemmas -/

theorem reflect_mem : ∀ c ∈ alphabet, reflect c ∈ alphabet := by decide

theorem reflect_reflect : ∀ c ∈ alphabet, reflect (reflect c) = c := by decide

theorem reflect_ne_self : ∀ c ∈ alphabet, reflect c ≠ c := by decide

/-! ### Signal path: closure, involution, no fixed point -/

theorem signalPath_mem (e : Enigma)
    (hplug : ∀ x ∈ plugLetters e.plugboardPairs, x ∈ alphabet) (c : Char) :
    signalPath e c ∈ alphabet := by
  unfold signalPath
  exact plugboardSwap_mem_alphabet _ hplug _ (Rotor.backward_mem _ _)

theorem signalPath_involutive (e : Enigma) (hv : validEnigma e) (c : Char)
    (hc : c ∈ alphabet) : signalPath e (signalPath e c) = c := by
  obtain ⟨hL, hM, hR, hnd, hsub⟩ := hv
  set c1 := plugboardSwap c e.plugboardPairs with hc1
  set c2 := e.rotorR.forward c1 with hc2
  set c3 := e.rotorM.forward c2 with hc3
  set c4 := e.rotorL.forward c3 with hc4
  set c5 := reflect c4 with hc5
  set c6 := e.rotorL.backward c5 with hc6
  set c7 := e.rotorM.backward c6 with hc7
  set c8 := e.rotorR.backward c7 with hc8
  have m1 : c1 ∈ alphabet := plugboardSwap_mem_alphabet _ hsub _ hc
  have m2 : c2 ∈ alphabet := Rotor.forward_mem _ _
  have m3 : c3 ∈ alphabet := Rotor.forward_mem _ _
  have m4 : c4 ∈ alphabet := Rotor.forward_mem _ _
  have m5 : c5 ∈ alphabet := hc5 ▸ reflect_mem _ m4
  have m6 : c6 ∈ alphabet := Rotor.backward_mem _ _
  have m7 : c7 ∈ alphabet := Rotor.backward_mem _ _
  have hfirst : signalPath e c = plugboardSwap c8 e.plugboardPairs := rfl
  rw [hfirst]
  show plugboardSwap
    (e.rotorR.backward (e.rotorM.backward (e.rotorL.backward (reflect
      (e.rotorL.forward (e.rotorM.forward (e.rotorR.forward
        (plugboardSwap (plugboardSwap c8 e.plugboardPairs) e.plugboardPairs))))))))
    e.plugboardPairs = c
  rw [plugboardSwap_swap e.plugboardPairs hnd c8, hc8,
    Rotor.forward_backward e.rotorR hR c7 m7, hc7,
    Rotor.forward_backward e.rotorM hM c6 m6, hc6,
    Rotor.forward_backward e.rotorL hL c5 m5, hc5,
    reflect_reflect c4 m4, hc4,
    Rotor.backward_forward e.rotorL hL c3 m3, hc3,
    Rotor.backward_forward e.rotorM hM c2 m2, hc2,
    Rotor.backward_forward e.rotorR hR c1 m1, hc1,
    plugboardSwap_swap e.plugboardPairs hnd c]

theorem signalPath_ne_self (e : Enigma) (hv : validEnigma e) (c : Char)
    (hc : c ∈ alphabet) : signalPath e c ≠ c := by
  obtain ⟨hL, hM, hR, hnd, hsub⟩ := hv
  set c1 := plugboardSwap c e.plugboardPairs with hc1
  set c2 := e.rotorR.forward c1 with hc2
  set c3 := e.rotorM.forward c2 with hc3
  set c4 := e.rotorL.forward c3 with hc4
  set c5 := reflect c4 with hc5
  set c6 := e.rotorL.backward c5 with hc6
  set c7 := e.rotorM.backward c6 with hc7
  set c8 := e.rotorR.backward c7 with hc8
  have m1 : c1 ∈ alphabet := plugboardSwap_mem_alphabet _ hsub _ hc
  have m2 : c2 ∈ alphabet := Rotor.forward_mem _ _
  have m3 : c3 ∈ alphabet := Rotor.forward_mem _ _
  have m4 : c4 ∈ alphabet := Rotor.forward_mem _ _
  have m6 : c6 ∈ alphabet := Rotor.backward_mem _ _
  have m7 : c7 ∈ alphabet := Rotor.backward_mem _ _
  intro hfix
  have hpath : plugboardSwap c8 e.plugboardPairs = c := hfix
  have h8 : c8 = c1 := by
    have := congrArg (fun x => plugboardSwap x e.plugboardPairs) hpath
    simpa [plugboardSwap_swap e.plugboardPairs hnd c8, hc1] using this
  have h7 : c7 = c2 := by
    have := congrArg (fun x => e.rotorR.forward x) h8
    simp only [hc8, Rotor.forward_backward e.rotorR hR c7 m7] at this
    rw [this, hc2]
  have h6 : c6 = c3 := by
    have := congrArg (fun x => e.rotorM.forward x) h7
    simp only [hc7, Rotor.forward_backward e.rotorM hM c6 m6] at this
    rw [this, hc3]
  have h5 : c5 = c4 := by
    have := congrArg (fun x => e.rotorL.forward x) h6
    simp only [hc6, Rotor.forward_backward e.rotorL hL c5 (hc5 ▸ reflect_mem _ m4)]
      at this
    rw [this, hc4]
  exact reflect_ne_self c4 m4 (hc5 ▸ h5)

/-! ### Stepping lemmas -/

theorem stepRotors_plug (e : Enigma) :
    (stepRotors e).plugboardPairs = e.plugboardPairs := by
  unfold stepRotors
  cases hR : e.rotorR.atNotch <;> cases hM : e.rotorM.atNotch <;> simp [hR, hM]

theorem stepRotors_wiringL (e : Enigma) :
    (stepRotors e).rotorL.wiring = e.rotorL.wiring := by
  unfold stepRotors
  cases hR : e.rotorR.atNotch <;> cases hM : e.rotorM.atNotch <;>
    simp [hR, hM, Rotor.step]

theorem stepRotors_wiringM (e : Enigma) :
    (stepRotors e).rotorM.wiring = e.rotorM.wiring := by
  unfold stepRotors
  cases hR : e.rotorR.atNotch <;> cases hM : e.rotorM.atNotch <;>
    simp [hR, hM, Rotor.step]

theorem stepRotors_wiringR (e : Enigma) :
    (stepRotors e).rotorR.wiring = e.rotorR.wiring := by
  unfold stepRotors
  cases hR : e.rotorR.atNotch <;> cases hM : e.rotorM.atNotch <;>
    simp [hR, hM, Rotor.step]

theorem stepRotors_rotorR_position (e : Enigma) :
    (stepRotors e).rotorR.position = (e.rotorR.position + 1) % 26 := by
  unfold stepRotors
  cases hR : e.rotorR.atNotch <;> cases hM : e.rotorM.atNotch <;>
    simp [hR, hM, Rotor.step]

theorem stepRotors_valid (e : Enigma) (hv : validEnigma e) :
    validEnigma (stepRotors e) := by
  obtain ⟨hL, hM, hR, hplug⟩ := hv
  refine ⟨?_, ?_, ?_, ?_⟩
  · rw [stepRotors_wiringL]; exact hL
  · rw [stepRotors_wiringM]; exact hM
  · rw [stepRotors_wiringR]; exact hR
  · rw [stepRotors_plug]; exact hplug

/-! ### Per-character and message-level lemmas -/

theorem encryptChar_valid (e : Enigma) (c : Char) (hv : validEnigma e) :
    validEnigma (encryptChar e c).1 := by
  unfold encryptChar
  by_cases h : c ∈ alphabet
  · rw [if_pos h]; exact stepRotors_valid e hv
  · rw [if_neg h]; exact hv

theorem encryptChar_involutive (e : Enigma) (hv : validEnigma e) (c : Char) :
    encryptChar e ((encryptChar e c).2) = ((encryptChar e c).1, c) := by
  by_cases h : c ∈ alphabet
  · have hv1 := stepRotors_valid e hv
    have heq : encryptChar e c = (stepRotors e, signalPath (stepRotors e) c) := by
      simp [encryptChar, h]
    rw [heq]
    have hdmem : signalPath (stepRotors e) c ∈ alphabet :=
      signalPath_mem _ hv1.2.2.2.2 c
    show encryptChar e (signalPath (stepRotors e) c) = (stepRotors e, c)
    unfold encryptChar
    rw [if_pos hdmem, signalPath_involutive _ hv1 c h]
  · have heq : encryptChar e c = (e, c) := by simp [encryptChar, h]
    rw [heq]
    exact heq

theorem encryptChar_no_fixed_point (e : Enigma) (hv : validEnigma e) (c : Char)
    (hc : c ∈ alphabet) : (encryptChar e c).2 ≠ c := by
  have heq : (encryptChar e c).2 = signalPath (stepRotors e) c := by
    simp [encryptChar, hc]
  rw [heq]
  exact signalPath_ne_self _ (stepRotors_valid e hv) c hc

theorem processChars_roundTrip (M : List Char) : ∀ (e : Enigma), validEnigma e →
    (processChars e (processChars e M).2).2 = M := by
  induction M with
  | nil => intro e _; rfl
  | cons c cs ih =>
    intro e hv
    have hinv := encryptChar_involutive e hv c
    show (processChars e
      ((encryptChar e c).2 :: (processChars (encryptChar e c).1 cs).2)).2 = c :: cs
    show (encryptChar e ((encryptChar e c).2)).2 ::
      (processChars (encryptChar e ((encryptChar e c).2)).1
        ((processChars (encryptChar e c).1 cs).2)).2 = c :: cs
    rw [hinv]
    exact congrArg (c :: ·) (ih (encryptChar e c).1 (encryptChar_valid e c hv))

/-! ### Uppercasing lemmas -/

theorem lowercase_length : lowercaseAlphabet.length = 26 := rfl

theorem alphabet_lower_disjoint : ∀ c ∈ alphabet, c ∉ lowercaseAlphabet := by
  decide

theorem upChar_alpha : ∀ c ∈ alphabet, upChar c = c := by decide

theorem upChar_mem_of_lower {c : Char} (h : c ∈ lowercaseAlphabet) :
    upChar c ∈ alphabet := by
  unfold upChar
  rw [if_pos h]
  exact getD_alphabet_mem _ (List.indexOf_lt_length.2 h)

theorem upChar_not_lower (c : Char) : upChar c ∉ lowercaseAlphabet := by
  by_cases h : c ∈ lowercaseAlphabet
  · exact alphabet_lower_disjoint _ (upChar_mem_of_lower h)
  · have : upChar c = c := by unfold upChar; rw [if_neg h]
    rw [this]; exact h

theorem upChar_idem (c : Char) : upChar (upChar c) = upChar c := by
  have h3 : upChar c ∉ lowercaseAlphabet := upChar_not_lower c
  show (if upChar c ∈ lowercaseAlphabet then
    alphabet.getD (lowercaseAlphabet.indexOf (upChar c)) 'A' else upChar c) = upChar c
  rw [if_neg h3]

theorem map_id_of {α : Type} (f : α → α) :
    ∀ (l : List α), (∀ x ∈ l, f x = x) → l.map f = l := by
  intro l
  induction l with
  | nil => intro _; rfl
  | cons x xs ih =>
    intro h
    simp only [List.map_cons]
    rw [h x (List.mem_cons_self x xs), ih fun y hy => h y (List.mem_cons_of_mem _ hy)]

theorem processChars_out_fixed (L : List Char) : ∀ (e : Enigma), validEnigma e →
    (∀ x ∈ L, upChar x = x) → ∀ y ∈ (processChars e L).2, upChar y = y := by
  induction L with
  | nil =>
    intro e _ _ y hy
    simp [processChars] at hy
  | cons c cs ih =>
    intro e hv hfix y hy
    have hy2 : y = (encryptChar e c).2 ∨
        y ∈ (processChars (encryptChar e c).1 cs).2 := List.mem_cons.1 hy
    rcases hy2 with h | h
    · subst h
      by_cases hc : c ∈ alphabet
      · have heq : (encryptChar e c).2 = signalPath (stepRotors e) c := by
          simp [encryptChar, hc]
        rw [heq]
        exact upChar_alpha _
          (signalPath_mem _ (stepRotors_valid e hv).2.2.2.2 c)
      · have heq : (encryptChar e c).2 = c := by simp [encryptChar, hc]
        rw [heq]
        exact hfix c (List.mem_cons_self c cs)
    · exact ih (encryptChar e c).1 (encryptChar_valid e c hv)
        (fun x hx => hfix x (List.mem_cons_of_mem _ hx)) y h

theorem process_roundTrip_core (e : Enigma) (hv : validEnigma e) (M : List Char) :
    process e (process e M) = M.map upChar := by
  unfold process
  have hfix : ∀ x ∈ M.map upChar, upChar x = x := by
    intro x hx
    rcases List.mem_map.1 hx with ⟨y, _, rfl⟩
    exact upChar_idem y
  have hout : ∀ y ∈ (processChars e (M.map upChar)).2, upChar y = y :=
    processChars_out_fixed _ e hv hfix
  rw [map_id_of upChar _ hout]
  exact processChars_roundTrip (M.map upChar) e hv

/-! ### Passthrough, length preservation, and construction lemmas -/

theorem encryptChar_not_alpha (e : Enigma) (c : Char) (h : c ∉ alphabet) :
    encryptChar e c = (e, c) := by
  simp [encryptChar, h]

theorem upChar_not_alpha_eq {c : Char} (h : upChar c ∉ alphabet) : upChar c = c := by
  by_cases hl : c ∈ lowercaseAlphabet
  · exact absurd (upChar_mem_of_lower hl) h
  · unfold upChar; rw [if_neg hl]

theorem upChar_fixed_not_lower {c : Char} (h : upChar c = c) :
    c ∉ lowercaseAlphabet :=
  fun hl => alphabet_lower_disjoint c (h ▸ upChar_mem_of_lower hl) hl

theorem processChars_length (L : List Char) :
    ∀ e, ((processChars e L).2).length = L.length := by
  induction L with
  | nil => intro e; rfl
  | cons c cs ih =>
    intro e
    show ((encryptChar e c).2 :: (processChars (encryptChar e c).1 cs).2).length =
      cs.length + 1
    rw [List.length_cons, ih]

theorem processChars_get (L : List Char) :
    ∀ (e : Enigma) (i : Nat) (hi : i < L.length)
      (ho : i < ((processChars e L).2).length), L.get ⟨i, hi⟩ ∉ alphabet →
      ((processChars e L).2).get ⟨i, ho⟩ = L.get ⟨i, hi⟩ := by
  induction L with
  | nil => intro e i hi; exact absurd hi (by simp)
  | cons c cs ih =>
    intro e i hi ho hna
    cases i with
    | zero =>
      show (encryptChar e c).2 = c
      rw [encryptChar_not_alpha e c hna]
    | succ n =>
      exact ih (encryptChar e c).1 n (Nat.lt_of_succ_lt_succ hi)
        (Nat.lt_of_succ_lt_succ ho) hna

theorem process_length (e : Enigma) (s : List Char) :
    (process e s).length = s.length := by
  unfold process
  rw [processChars_length, List.length_map]

theorem process_get_passthrough (e : Enigma) (s : List Char) (i : Nat)
    (hi : i < s.length) (ho : i < (process e s).length)
    (hna : upChar (s.get ⟨i, hi⟩) ∉ alphabet) :
    (process e s).get ⟨i, ho⟩ = s.get ⟨i, hi⟩ := by
  have hmi : i < (s.map upChar).length := by rwa [List.length_map]
  have hmap : (s.map upChar).get ⟨i, hmi⟩ = upChar (s.get ⟨i, hi⟩) := by
    simp [List.get_eq_getElem, List.getElem_map]
  have hres := processChars_get (s.map upChar) e i hmi ho (hmap ▸ hna)
  calc (process e s).get ⟨i, ho⟩ = (s.map upChar).get ⟨i, hmi⟩ := hres
    _ = upChar (s.get ⟨i, hi⟩) := hmap
    _ = s.get ⟨i, hi⟩ := upChar_not_alpha_eq hna

theorem construct_error_of_bad (ids : List Nat) (pos rings : List Int)
    (plugs : List (Char × Char))
    (hbad : ids.length < 3 ∨ (∃ p ∈ pos, p < 0 ∨ 25 < p) ∨
      (∃ r ∈ rings, r < 0 ∨ 25 < r) ∨ ¬ (plugLetters plugs).Nodup) :
    construct ids pos rings plugs = Except.error ConfigError.configurationError := by
  unfold construct
  rw [if_neg ?hfalse]
  case hfalse =>
    intro hvc
    simp only [validConfig, Bool.and_eq_true, beq_iff_eq, List.all_eq_true,
      decide_eq_true_eq] at hvc
    obtain ⟨⟨⟨⟨⟨⟨⟨hid, hposlen⟩, hringlen⟩, hpos⟩, hring⟩, hplugnd⟩, hplugsub⟩,
      hpluglen⟩ := hvc
    rcases hbad with h | h | h | h
    · omega
    · obtain ⟨p, hp, hout⟩ := h
      have := hpos p hp
      omega
    · obtain ⟨r, hr, hout⟩ := h
      have := hring r hr
      omega
    · exact h hplugnd

/-! ### Claim theorems -/

set_option maxRecDepth 100000 in
/-- C1 counterexample: the claim quantifies over every message M, but `process`
uppercases its input, so a message containing a lowercase letter is not
returned verbatim by the round trip: encrypting the one-character message
consisting of a lowercase h and decrypting on a freshly configured identical
machine yields an uppercase H, not the original message. -/
theorem C1_lowercase_not_restored :
    process (mkEnigma [0, 1, 2] [0, 0, 0] [0, 0, 0] [])
      (process (mkEnigma [0, 1, 2] [0, 0, 0] [0, 0, 0] []) ['h']) ≠ ['h'] := by
  decide

/-- C1 (amended): for every valid configuration (a machine state whose rotor
wirings are permutations of the alphabet and whose plugboard pairs use
distinct alphabet letters) and every message M, encrypting M and then running
the ciphertext through a machine freshly constructed with the same
configuration (the same `Enigma` value, hence started at the same initial
rotor positions) yields the uppercased M — and therefore M itself whenever M
contains no lowercase letters. -/
theorem C1_roundTrip_uppercases (e : Enigma) (hv : validEnigma e)
    (M : List Char) : process e (process e M) = M.map upChar :=
  process_roundTrip_core e hv M

/-- C1 witness: the round trip at the regression-test configuration, plugboard
pairs A-B and C-D, message ABCD. -/
theorem C1_roundTrip_uppercases_witness :
    process (mkEnigma [0, 1, 2] [0, 0, 0] [0, 0, 0] [('A', 'B'), ('C', 'D')])
      (process (mkEnigma [0, 1, 2] [0, 0, 0] [0, 0, 0] [('A', 'B'), ('C', 'D')])
        ['A', 'B', 'C', 'D']) = (['A', 'B', 'C', 'D'] : List Char).map upChar :=
  C1_roundTrip_uppercases _ (by decide) _

/-- C2 counterexample: the claim asserts that whenever the middle rotor sits at
its notch before stepping, one invocation of `stepRotors` advances the middle
rotor by exactly 1; but when the right rotor is also at its notch the middle
rotor steps twice (once driven by the right rotor, once by double-stepping),
advancing by 2.  Configuration: rotors I, II, III at positions 0, 4, 21, so
the middle rotor (notch E, index 4) and the right rotor (notch V, index 21)
are both at their notches. -/
theorem C2_both_notches_counterexample :
    (mkEnigma [0, 1, 2] [0, 4, 21] [0, 0, 0] []).rotorM.atNotch = true ∧
    ¬ ((stepRotors (mkEnigma [0, 1, 2] [0, 4, 21] [0, 0, 0] [])).rotorM.position
      = ((mkEnigma [0, 1, 2] [0, 4, 21] [0, 0, 0] []).rotorM.position + 1) % 26)
    := by
  decide

/-- C2 (amended): whenever the middle rotor sits at its notch position before
any stepping on a keystroke and the right rotor does not, one invocation of
`stepRotors` advances the left, middle and right rotor positions each by
exactly 1 modulo 26, with the middle rotor's notch state evaluated before any
rotor has moved. -/
theorem C2_double_stepping_amended (e : Enigma) (hm : e.rotorM.atNotch = true)
    (hr : e.rotorR.atNotch = false) :
    (stepRotors e).rotorL.position = (e.rotorL.position + 1) % 26 ∧
    (stepRotors e).rotorM.position = (e.rotorM.position + 1) % 26 ∧
    (stepRotors e).rotorR.position = (e.rotorR.position + 1) % 26 := by
  unfold stepRotors
  rw [hm, hr]
  simp [Rotor.step]

/-- C2 witness: the double-stepping configuration of the test suite, rotors I,
II, III at positions 0, 4, 4 (middle rotor at its notch E, right rotor away
from its notch V). -/
theorem C2_double_stepping_witness :
    (stepRotors (mkEnigma [0, 1, 2] [0, 4, 4] [0, 0, 0] [])).rotorL.position =
      ((mkEnigma [0, 1, 2] [0, 4, 4] [0, 0, 0] []).rotorL.position + 1) % 26 ∧
    (stepRotors (mkEnigma [0, 1, 2] [0, 4, 4] [0, 0, 0] [])).rotorM.position =
      ((mkEnigma [0, 1, 2] [0, 4, 4] [0, 0, 0] []).rotorM.position + 1) % 26 ∧
    (stepRotors (mkEnigma [0, 1, 2] [0, 4, 4] [0, 0, 0] [])).rotorR.position =
      ((mkEnigma [0, 1, 2] [0, 4, 4] [0, 0, 0] []).rotorR.position + 1) % 26 :=
  C2_double_stepping_amended _ (by decide) (by decide)

/-- C3: for every uppercase letter, every valid machine state (rotor wirings
permutations of the alphabet, plugboard pairs distinct alphabet letters —
this holds for every freshly constructed valid configuration and is preserved
by encryption, hence for every reachable state), `encryptChar` never returns
the letter it was given. -/
theorem C3_no_fixed_points (e : Enigma) (hv : validEnigma e) (c : Char)
    (hc : c ∈ alphabet) : (encryptChar e c).2 ≠ c :=
  encryptChar_no_fixed_point e hv c hc

/-- C3 witness: the default configuration never encrypts A to itself. -/
theorem C3_no_fixed_points_witness :
    (encryptChar (mkEnigma [0, 1, 2] [0, 0, 0] [0, 0, 0] []) 'A').2 ≠ 'A' :=
  C3_no_fixed_points _ (by decide) 'A' (by decide)

/-- C4: for every wiring that is a permutation of the alphabet, every notch
letter, every ring setting and position in 0..25, and every uppercase letter
L, the rotor satisfies backward (forward L) = L; `forward` and `backward` are
pure functions of the rotor value (embedded as side-effect-free Lean
functions). -/
theorem C4_rotor_roundTrip (w : List Char) (nt : Char) (ring pos : Nat)
    (hw : validWiring w) (hring : ring ≤ 25) (hpos : pos ≤ 25) (L : Char)
    (hL : L ∈ alphabet) :
    (Rotor.mk w nt ring pos).backward ((Rotor.mk w nt ring pos).forward L) = L :=
  Rotor.backward_forward _ hw L hL

/-- C4 witness: rotor I with ring setting 5 and position 11 round-trips K. -/
theorem C4_rotor_roundTrip_witness :
    (Rotor.mk (ROTORS.getD 0 (alphabet, 'A')).1 'Q' 5 11).backward
      ((Rotor.mk (ROTORS.getD 0 (alphabet, 'A')).1 'Q' 5 11).forward 'K') = 'K' :=
  C4_rotor_roundTrip _ 'Q' 5 11 (by decide) (by decide) (by decide) 'K' (by decide)

/-- C5: the plugboard swap is an involution for every character and every pair
list with pairwise-distinct letters; with the empty pair list it is the
identity; and a character not occurring in any pair maps to itself. -/
theorem C5_plugboard_involution :
    (∀ (c : Char) (pairs : List (Char × Char)), (plugLetters pairs).Nodup →
      plugboardSwap (plugboardSwap c pairs) pairs = c) ∧
    (∀ c : Char, plugboardSwap c [] = c) ∧
    (∀ (c : Char) (pairs : List (Char × Char)), c ∉ plugLetters pairs →
      plugboardSwap c pairs = c) :=
  ⟨fun c pairs hnd => plugboardSwap_swap pairs hnd c,
   fun _ => rfl,
   fun c pairs h => plugboardSwap_not_mem c pairs h⟩

/-- C5 witness: the pair list A-B, C-D of the test suite swaps A twice back to
A, the empty plugboard fixes Q, and E (in no pair) is fixed. -/
theorem C5_plugboard_involution_witness :
    plugboardSwap (plugboardSwap 'A' [('A', 'B'), ('C', 'D')])
      [('A', 'B'), ('C', 'D')] = 'A' ∧
    plugboardSwap 'Q' [] = 'Q' ∧
    plugboardSwap 'E' [('A', 'B'), ('C', 'D')] = 'E' :=
  ⟨C5_plugboard_involution.1 'A' [('A', 'B'), ('C', 'D')] (by decide),
   C5_plugboard_involution.2.1 'Q',
   C5_plugboard_involution.2.2 'E' [('A', 'B'), ('C', 'D')] (by decide)⟩

set_option maxRecDepth 100000 in
/-- C6 counterexample: a lowercase a is not in the 26-letter uppercase
alphabet, so the claim calls it non-alphabetic; yet `process` does not
preserve it verbatim — it uppercases it and encrypts the result. -/
theorem C6_lowercase_not_preserved :
    'a' ∉ alphabet ∧
    process (mkEnigma [0, 1, 2] [0, 0, 0] [0, 0, 0] []) ['a'] ≠ ['a'] := by
  decide

/-- C6 (amended): `encryptChar` returns any character outside the uppercase
alphabet unchanged with the machine state exactly as it was; `process`
preserves length; and `process` preserves verbatim, at its original position,
every character that is still outside the alphabet after uppercasing (for a
lowercase letter the uppercased character is alphabetic, so `process`
encrypts it instead of preserving it). -/
theorem C6_passthrough_amended :
    (∀ (e : Enigma) (c : Char), c ∉ alphabet → encryptChar e c = (e, c)) ∧
    (∀ (e : Enigma) (s : List Char), (process e s).length = s.length) ∧
    (∀ (e : Enigma) (s : List Char) (i : Nat) (hi : i < s.length)
      (ho : i < (process e s).length), upChar (s.get ⟨i, hi⟩) ∉ alphabet →
      (process e s).get ⟨i, ho⟩ = s.get ⟨i, hi⟩) :=
  ⟨encryptChar_not_alpha, process_length, process_get_passthrough⟩

/-- C6 witness: an exclamation mark passes through `encryptChar` with the
machine unchanged, and the space of the three-character input A-space-7 is
preserved at index 1 by `process`. -/
theorem C6_passthrough_witness :
    encryptChar (mkEnigma [0, 1, 2] [0, 0, 0] [0, 0, 0] []) '!' =
      (mkEnigma [0, 1, 2] [0, 0, 0] [0, 0, 0] [], '!') ∧
    (process (mkEnigma [0, 1, 2] [0, 0, 0] [0, 0, 0] []) ['A', ' ', '7']).get
      ⟨1, by decide⟩ = (['A', ' ', '7'] : List Char).get ⟨1, by decide⟩ :=
  ⟨C6_passthrough_amended.1 _ '!' (by decide),
   C6_passthrough_amended.2.2 _ ['A', ' ', '7'] 1 (by decide) (by decide)
     (by decide)⟩

/-- C7 (spec-modelled): constructing a machine from a malformed configuration
— fewer than 3 rotor indices, a position or ring setting outside 0..25, or a
duplicated plugboard letter (in particular a letter appearing in more than
one pair) — fails at construction time with a configuration error. -/
theorem C7_failfast_construction (ids : List Nat) (pos rings : List Int)
    (plugs : List (Char × Char))
    (hbad : ids.length < 3 ∨ (∃ p ∈ pos, p < 0 ∨ 25 < p) ∨
      (∃ r ∈ rings, r < 0 ∨ 25 < r) ∨ ¬ (plugLetters plugs).Nodup) :
    construct ids pos rings plugs = Except.error ConfigError.configurationError :=
  construct_error_of_bad ids pos rings plugs hbad

/-- C7 witness: two rotor indices are fewer than three, so construction
errors. -/
theorem C7_failfast_construction_witness :
    construct [0, 1] [0, 0, 0] [0, 0, 0] [] =
      Except.error ConfigError.configurationError :=
  C7_failfast_construction [0, 1] [0, 0, 0] [0, 0, 0] [] (Or.inl (by decide))

/-- C8: `process` first uppercases its input, so processing s and processing
the uppercased s coincide, and no character of the output of `process` is a
lowercase letter (every alphabetic output character is uppercase); stated for
machines in a valid state, since an invalid plugboard containing non-alphabet
letters could emit them. -/
theorem C8_case_handling (e : Enigma) (hv : validEnigma e) (s : List Char) :
    process e s = process e (s.map upChar) ∧
    ∀ c ∈ process e s, c ∉ lowercaseAlphabet := by
  constructor
  · unfold process
    rw [map_id_of upChar (s.map upChar) fun x hx => by
      rcases List.mem_map.1 hx with ⟨y, _, rfl⟩
      exact upChar_idem y]
  · intro c hc
    have hfix : ∀ x ∈ s.map upChar, upChar x = x := fun x hx => by
      rcases List.mem_map.1 hx with ⟨y, _, rfl⟩
      exact upChar_idem y
    exact upChar_fixed_not_lower (processChars_out_fixed _ e hv hfix c hc)

/-- C8 witness: processing the mixed-case input h, i, bang at the default
configuration equals processing its uppercased form, and the output contains
no lowercase letter. -/
theorem C8_case_handling_witness :
    process (mkEnigma [0, 1, 2] [0, 0, 0] [0, 0, 0] []) ['h', 'i', '!'] =
      process (mkEnigma [0, 1, 2] [0, 0, 0] [0, 0, 0] [])
        ((['h', 'i', '!'] : List Char).map upChar) ∧
    ∀ c ∈ process (mkEnigma [0, 1, 2] [0, 0, 0] [0, 0, 0] []) ['h', 'i', '!'],
      c ∉ lowercaseAlphabet :=
  C8_case_handling _ (by decide) _

/-- C9: for every alphabetic input character and any machine state, one call
to `encryptChar` leaves the right rotor at its previous position plus 1
modulo 26 (it steps unconditionally, exactly once), and `Rotor.step` itself
increments a rotor's position by 1 modulo 26. -/
theorem C9_right_rotor_always_steps (e : Enigma) (c : Char)
    (hc : c ∈ alphabet) :
    ((encryptChar e c).1).rotorR.position = (e.rotorR.position + 1) % 26 ∧
    ∀ r : Rotor, (Rotor.step r).position = (r.position + 1) % 26 := by
  constructor
  · have heq : (encryptChar e c).1 = stepRotors e := by simp [encryptChar, hc]
    rw [heq]
    exact stepRotors_rotorR_position e
  · intro r; rfl

/-- C9 witness: encrypting A at the default configuration advances the right
rotor from 0 to 1. -/
theorem C9_right_rotor_always_steps_witness :
    ((encryptChar (mkEnigma [0, 1, 2] [0, 0, 0] [0, 0, 0] []) 'A').1).rotorR.position
      = ((mkEnigma [0, 1, 2] [0, 0, 0] [0, 0, 0] []).rotorR.position + 1) % 26 ∧
    ∀ r : Rotor, (Rotor.step r).position = (r.position + 1) % 26 :=
  C9_right_rotor_always_steps _ 'A' (by decide)

/-- C10: a lowercase letter is not in the uppercase alphabet, so `encryptChar`
returns it unchanged — not encrypted, not uppercased — and the machine state,
including all three rotor positions, is exactly as before; case normalization
happens only in `process`. -/
theorem C10_lowercase_passthrough (e : Enigma) (c : Char)
    (hl : c ∈ lowercaseAlphabet) : encryptChar e c = (e, c) := by
  have hna : c ∉ alphabet := fun h => alphabet_lower_disjoint c h hl
  simp [encryptChar, hna]

/-- C10 witness: a lowercase q passes through `encryptChar` unchanged with the
machine state untouched. -/
theorem C10_lowercase_passthrough_witness :
    encryptChar (mkEnigma [0, 1, 2] [0, 0, 0] [0, 0, 0] []) 'q' =
      (mkEnigma [0, 1, 2] [0, 0, 0] [0, 0, 0] [], 'q') :=
  C10_lowercase_passthrough _ 'q' (by decide)
